import Mathlib

/-!
Shallow embedding of the Monte Carlo option pricing core
(src/rng.c, src/option.c, src/gbm.c, src/normal.c, src/monte_carlo.c).

C doubles are modelled as real numbers; the 32-bit unsigned generator
state is modelled as a natural number below 2^32, with wraparound made
explicit by reduction modulo 2^32.  The global RNG state of rng.c is
modelled by explicit state passing: each sampling function takes the
current state and returns the sampled value together with the new state.
-/

namespace MCPricing

/-- 2^32, the modulus of the 32-bit unsigned state. -/
def U32 : ℕ := 4294967296

/-- UINT32_MAX = 2^32 - 1, the scaling denominator in random_double. -/
def UINT32_MAX : ℕ := 4294967295

/-- Embeds xorshift32 from src/rng.c: three xor-shift steps
(left 13, right 17, left 5) on the 32-bit state; the left shifts wrap
modulo 2^32 as the C uint32_t arithmetic does.  Returns the new state,
which is also the 32-bit output. -/
def xorshift32 (state : ℕ) : ℕ :=
  let x1 := state ^^^ ((state <<< 13) % U32)
  let x2 := x1 ^^^ (x1 >>> 17)
  x2 ^^^ ((x2 <<< 5) % U32)

/-- Embeds rng_seed from src/rng.c: a zero seed is coerced to 1,
any other seed becomes the state unchanged. -/
def rng_seed (seed : ℕ) : ℕ :=
  if seed = 0 then 1 else seed

/-- Embeds random_double from src/rng.c: advance the state by one
xorshift32 step and scale the resulting 32-bit integer by
1 / UINT32_MAX.  Returns the double and the new state. -/
noncomputable def random_double (state : ℕ) : ℝ × ℕ :=
  let x := xorshift32 state
  ((x : ℝ) / (UINT32_MAX : ℝ), x)

/-- Embeds normal_random from src/rng.c: draws two uniforms u1, u2 and
returns the Box-Muller value sqrt(-2 ln u1) * cos(2 pi u2).  The C code
applies log directly to u1, with no re-draw and no clamping. -/
noncomputable def normal_random (state : ℕ) : ℝ × ℕ :=
  let u1 := (random_double state).1
  let s1 := (random_double state).2
  let u2 := (random_double s1).1
  let s2 := (random_double s1).2
  (Real.sqrt (-2 * Real.log u1) * Real.cos (2 * Real.pi * u2), s2)

/-- The argument that normal_random hands to log: exactly the raw first
uniform draw, unmodified (src/rng.c line 113 computes log(u1) on the
value returned by random_double). -/
noncomputable def normal_random_log_arg (state : ℕ) : ℝ :=
  (random_double state).1

/-- Embeds call_payoff from src/option.c: (S > K) ? (S - K) : 0.0. -/
noncomputable def call_payoff (S K : ℝ) : ℝ :=
  if S > K then S - K else 0

/-- Embeds put_payoff from src/option.c: (K > S) ? (K - S) : 0.0. -/
noncomputable def put_payoff (S K : ℝ) : ℝ :=
  if K > S then K - S else 0

/-- Embeds simulate_gbm from src/gbm.c: draw one standard normal Z and
return S0 * exp((r - 0.5*sigma*sigma)*T + sigma*sqrt(T)*Z), threading
the generator state. -/
noncomputable def simulate_gbm (S0 r sigma T : ℝ) (state : ℕ) : ℝ × ℕ :=
  let Z := (normal_random state).1
  (S0 * Real.exp ((r - 0.5 * sigma * sigma) * T + sigma * Real.sqrt T * Z),
    (normal_random state).2)

/-- The accumulation loop of price_european_call_mc in
src/monte_carlo.c: n iterations, each simulating one GBM terminal
price, adding its call payoff to the running sum, and advancing the
generator state. -/
noncomputable def mc_loop (S0 K r sigma T : ℝ) : ℕ → ℝ → ℕ → ℝ × ℕ
  | 0, acc, state => (acc, state)
  | Nat.succ m, acc, state =>
      mc_loop S0 K r sigma T m
        (acc + call_payoff (simulate_gbm S0 r sigma T state).1 K)
        (simulate_gbm S0 r sigma T state).2

/-- Embeds price_european_call_mc from src/monte_carlo.c: run the loop
from payoff_sum = 0, divide the sum by n_sim, then multiply by the
discount factor exp(-r*T).  The C function performs no validation of
its arguments.  Returns the price and the final generator state. -/
noncomputable def price_european_call_mc
    (S0 K r sigma T : ℝ) (n_sim : ℕ) (state : ℕ) : ℝ × ℕ :=
  let res := mc_loop S0 K r sigma T n_sim 0 state
  let avg_payoff := res.1 / (n_sim : ℝ)
  (avg_payoff * Real.exp (-r * T), res.2)

/-- The error function erf, as the C99 math library defines it:
erf x = (2 / sqrt pi) * integral of exp(-t^2) for t from 0 to x.
Mathlib 4.14 has no erf, so it is introduced here; only erf 0 = 0 is
needed for the degenerate-input analysis. -/
noncomputable def erf (x : ℝ) : ℝ :=
  (2 / Real.sqrt Real.pi) * ∫ t in (0:ℝ)..x, Real.exp (-t ^ 2)

/-- Embeds normal_cdf from src/normal.c: 0.5 * (1 + erf(x / sqrt 2)). -/
noncomputable def normal_cdf (x : ℝ) : ℝ :=
  0.5 * (1 + erf (x / Real.sqrt 2))

/-- Embeds price_european_call_bs from src/monte_carlo.c: the
Black-Scholes formula S0*N(d1) - K*exp(-r*T)*N(d2), evaluated
unconditionally (no special case for sigma = 0 or T = 0). -/
noncomputable def price_european_call_bs (S0 K r sigma T : ℝ) : ℝ :=
  let sqrt_T := Real.sqrt T
  let d1 := (Real.log (S0 / K) + (r + 0.5 * sigma * sigma) * T) / (sigma * sqrt_T)
  let d2 := d1 - sigma * sqrt_T
  S0 * normal_cdf d1 - K * Real.exp (-r * T) * normal_cdf d2

/-- IEEE-754 double values as relevant to the degenerate path of
price_european_call_bs: a finite real, positive or negative infinity,
or NaN.  The real-valued embedding above collapses the division by zero
that the C code performs when sigma*sqrt(T) = 0; this type keeps that
error path explicit. -/
inductive Dbl where
  | nan : Dbl
  | pinf : Dbl
  | ninf : Dbl
  | fin : ℝ → Dbl

/-- IEEE-754 division of two finite doubles where the denominator may be
(positive) zero, as in d1 of price_european_call_bs: finite/finite is
the real quotient, positive/0 is +Infinity, negative/0 is -Infinity,
and 0/0 is NaN (invalid operation).  On the degenerate path the
denominator sigma*sqrt(T) is the product of two nonnegative doubles, so
when it vanishes it is +0.0 and the unsigned-zero case split below is
the IEEE behaviour. -/
noncomputable def ieee_div (a b : ℝ) : Dbl :=
  if b = 0 then
    if 0 < a then Dbl.pinf else if a < 0 then Dbl.ninf else Dbl.nan
  else Dbl.fin (a / b)

/-- Subtraction of a finite double from a Dbl, as in d2 = d1 - sigma*sqrt_T:
infinities and NaN absorb the finite subtrahend (IEEE-754). -/
noncomputable def dsub_fin : Dbl → ℝ → Dbl
  | Dbl.nan, _ => Dbl.nan
  | Dbl.pinf, _ => Dbl.pinf
  | Dbl.ninf, _ => Dbl.ninf
  | Dbl.fin x, c => Dbl.fin (x - c)

/-- The normal_cdf of src/normal.c, 0.5*(1 + erf(x/sqrt 2)), extended to
special values by C99/IEEE semantics: x = +-Infinity divides through
sqrt 2 unchanged, erf(+-Infinity) = +-1 exactly (C99 F.10.8.1) giving
0.5*(1+1) = 1 and 0.5*(1-1) = 0, and NaN propagates through every
step. -/
noncomputable def dnormal_cdf : Dbl → Dbl
  | Dbl.nan => Dbl.nan
  | Dbl.pinf => Dbl.fin (0.5 * (1 + 1))
  | Dbl.ninf => Dbl.fin (0.5 * (1 + -1))
  | Dbl.fin x => Dbl.fin (0.5 * (1 + erf (x / Real.sqrt 2)))

/-- The final Black-Scholes combination a*p - b*q with finite
coefficients a = S0 and b = K*exp(-r*T) applied to the two normal_cdf
results: on this path each of p and q is either finite or NaN (see
dnormal_cdf, whose range contains no infinity), and any NaN operand
makes the result NaN (IEEE-754). -/
noncomputable def dcombine (a b : ℝ) : Dbl → Dbl → Dbl
  | Dbl.fin p, Dbl.fin q => Dbl.fin (a * p - b * q)
  | _, _ => Dbl.nan

/-- Embeds price_european_call_bs from src/monte_carlo.c once more, now
with the IEEE-754 special values of the d1/d2 division made explicit
instead of collapsed by total real division: the same sqrt_T, d1, d2
and final combination as the real-valued embedding, evaluated in Dbl.
For sigma*sqrt(T) different from zero the two embeddings agree (lemma
price_bs_ieee_refines). -/
noncomputable def price_european_call_bs_ieee (S0 K r sigma T : ℝ) : Dbl :=
  let sqrt_T := Real.sqrt T
  let d1 := ieee_div (Real.log (S0 / K) + (r + 0.5 * sigma * sigma) * T) (sigma * sqrt_T)
  let d2 := dsub_fin d1 (sigma * sqrt_T)
  dcombine S0 (K * Real.exp (-r * T)) (dnormal_cdf d1) (dnormal_cdf d2)

/-- The stream of uniform values produced by successive random_double
calls starting from state s: the n-th call sees the state advanced n
times, so its value is the scaled output of the next xorshift32 step. -/
noncomputable def uniform_stream (s : ℕ) (n : ℕ) : ℝ :=
  (random_double (xorshift32^[n] s)).1

/-- Restates the Monte Carlo algorithm as the spec describes it: the sum
over n successive draws of call_payoff(terminal_price(...), K), each
draw advancing the generator state.  Compared against mc_loop. -/
noncomputable def mc_payoff_sum_spec (S0 K r sigma T : ℝ) : ℕ → ℕ → ℝ
  | 0, _ => 0
  | Nat.succ m, state =>
      call_payoff (simulate_gbm S0 r sigma T state).1 K +
        mc_payoff_sum_spec S0 K r sigma T m (simulate_gbm S0 r sigma T state).2

lemma U32_eq : U32 = 2 ^ 32 := by norm_num [U32]

/-- If a power of two divides b, it divides b reduced modulo 2^32. -/
lemma pow_dvd_mod_u32 {m b : ℕ} (h : 2 ^ m ∣ b) : 2 ^ m ∣ b % U32 := by
  rcases le_or_lt m 32 with hm | hm
  · have h32 : (2:ℕ) ^ m ∣ U32 := U32_eq ▸ pow_dvd_pow 2 hm
    rw [Nat.mod_def]
    exact Nat.dvd_sub' h (h32.mul_right _)
  · have h32 : U32 ∣ b := by
      refine dvd_trans ?_ h
      exact U32_eq ▸ pow_dvd_pow 2 hm.le
    rw [Nat.mod_eq_zero_of_dvd h32]
    exact dvd_zero _

/-- A left xor-shift step can only map a 32-bit value to zero if the
value is zero: a = (a * 2^k) % 2^32 with k positive forces a = 0,
because it makes a divisible by ever higher powers of two. -/
lemma left_step_zero {k a : ℕ} (hk : 0 < k) (ha : a < U32)
    (h : a ^^^ ((a <<< k) % U32) = 0) : a = 0 := by
  rw [Nat.xor_eq_zero, Nat.shiftLeft_eq] at h
  have key : ∀ j : ℕ, 2 ^ (k * j) ∣ a := by
    intro j
    induction j with
    | zero => simp
    | succ j ih =>
        have h1 : 2 ^ (k * (j + 1)) ∣ a * 2 ^ k := by
          rw [Nat.mul_succ, pow_add]
          exact mul_dvd_mul ih dvd_rfl
        have h2 := pow_dvd_mod_u32 h1
        rwa [← h] at h2
  have h32 := key 32
  rcases Nat.eq_zero_or_pos a with h0 | h0
  · exact h0
  · have hle : (2:ℕ) ^ 32 ≤ 2 ^ (k * 32) :=
      Nat.pow_le_pow_right (by norm_num) (by omega)
    have := Nat.le_of_dvd h0 h32
    rw [U32_eq] at ha
    omega

/-- A right xor-shift step can only fix a value at zero. -/
lemma right_step_zero {k a : ℕ} (hk : 0 < k)
    (h : a ^^^ (a >>> k) = 0) : a = 0 := by
  rw [Nat.xor_eq_zero, Nat.shiftRight_eq_div_pow] at h
  rcases Nat.eq_zero_or_pos a with h0 | h0
  · exact h0
  · have hlt : a / 2 ^ k < a := by
      refine Nat.div_lt_self h0 ?_
      have : (2:ℕ) ^ 0 < 2 ^ k := Nat.pow_lt_pow_right (by norm_num) hk
      simpa using this
    omega

/-- The xorshift32 step keeps the state below 2^32. -/
lemma xorshift32_lt (s : ℕ) (hs : s < U32) : xorshift32 s < U32 := by
  have hU : U32 = 2 ^ 32 := U32_eq
  unfold xorshift32
  have h1 : s ^^^ ((s <<< 13) % U32) < U32 := by
    rw [hU]
    exact Nat.xor_lt_two_pow (hU ▸ hs) (hU ▸ Nat.mod_lt _ (by norm_num [U32]))
  have h2 : (s ^^^ ((s <<< 13) % U32)) ^^^ ((s ^^^ ((s <<< 13) % U32)) >>> 17) < U32 := by
    rw [hU]
    refine Nat.xor_lt_two_pow (hU ▸ h1) ?_
    calc (s ^^^ ((s <<< 13) % U32)) >>> 17 ≤ s ^^^ ((s <<< 13) % U32) := by
          rw [Nat.shiftRight_eq_div_pow]
          exact Nat.div_le_self _ _
      _ < 2 ^ 32 := hU ▸ h1
  rw [hU]
  exact Nat.xor_lt_two_pow (hU ▸ h2) (hU ▸ Nat.mod_lt _ (by norm_num [U32]))

/-- The xorshift32 step never maps a nonzero 32-bit state to zero. -/
lemma xorshift32_ne_zero {s : ℕ} (hs : s < U32) (h0 : s ≠ 0) :
    xorshift32 s ≠ 0 := by
  intro hz
  unfold xorshift32 at hz
  have h1 : s ^^^ ((s <<< 13) % U32) < U32 := by
    rw [U32_eq]
    exact Nat.xor_lt_two_pow (U32_eq ▸ hs) (U32_eq ▸ Nat.mod_lt _ (by norm_num [U32]))
  have h2 := left_step_zero (k := 5) (by norm_num) ?_ hz
  case _ =>
    have h3 := right_step_zero (k := 17) (by norm_num) h2
    have h4 := left_step_zero (k := 13) (by norm_num) hs h3
    exact h0 h4
  case _ =>
    rw [U32_eq]
    refine Nat.xor_lt_two_pow (U32_eq ▸ h1) ?_
    calc (s ^^^ ((s <<< 13) % U32)) >>> 17 ≤ s ^^^ ((s <<< 13) % U32) := by
          rw [Nat.shiftRight_eq_div_pow]
          exact Nat.div_le_self _ _
      _ < 2 ^ 32 := U32_eq ▸ h1

/-- From a nonzero 32-bit state, the value of random_double lies between
1/UINT32_MAX and 1 inclusive. -/
lemma random_double_bounds {s : ℕ} (hs : s < U32) (h0 : s ≠ 0) :
    1 / (UINT32_MAX : ℝ) ≤ (random_double s).1 ∧ (random_double s).1 ≤ 1 := by
  have hne := xorshift32_ne_zero hs h0
  have hlt := xorshift32_lt s hs
  have h1 : (1 : ℝ) ≤ (xorshift32 s : ℝ) := by
    exact_mod_cast Nat.one_le_iff_ne_zero.mpr hne
  have h2 : (xorshift32 s : ℝ) ≤ (UINT32_MAX : ℝ) := by
    have : xorshift32 s ≤ UINT32_MAX := by
      have : U32 = UINT32_MAX + 1 := by norm_num [U32, UINT32_MAX]
      omega
    exact_mod_cast this
  have hM : (0 : ℝ) < (UINT32_MAX : ℝ) := by norm_num [UINT32_MAX]
  constructor
  · simp only [random_double]
    gcongr
  · simp only [random_double]
    rw [div_le_one hM]
    exact h2

/-- The state set up by rng_seed is nonzero and below 2^32 for every
32-bit seed, and remains so under any number of xorshift32 steps. -/
lemma seeded_state_invariant {seed : ℕ} (hs : seed < U32) (n : ℕ) :
    xorshift32^[n] (rng_seed seed) ≠ 0 ∧ xorshift32^[n] (rng_seed seed) < U32 := by
  induction n with
  | zero =>
      simp only [Function.iterate_zero, id_eq, rng_seed]
      split
      · exact ⟨one_ne_zero, by norm_num [U32]⟩
      · exact ⟨by assumption, hs⟩
  | succ n ih =>
      rw [Function.iterate_succ_apply']
      exact ⟨xorshift32_ne_zero ih.2 ih.1, xorshift32_lt _ ih.2⟩

/-- The error function vanishes at the origin: the integral from 0 to 0
is empty. -/
lemma erf_zero : erf 0 = 0 := by
  simp [erf]

/-- The embedded normal CDF takes the value one half at the origin. -/
lemma normal_cdf_zero : normal_cdf 0 = 0.5 := by
  simp [normal_cdf, erf_zero]

/-- The accumulation loop adds exactly the spec-side payoff sum to its
accumulator, threading the same states. -/
lemma mc_loop_eq (S0 K r sigma T : ℝ) :
    ∀ (n : ℕ) (acc : ℝ) (state : ℕ),
      (mc_loop S0 K r sigma T n acc state).1
        = acc + mc_payoff_sum_spec S0 K r sigma T n state := by
  intro n
  induction n with
  | zero => intro acc state; simp [mc_loop, mc_payoff_sum_spec]
  | succ m ih =>
      intro acc state
      simp only [mc_loop, mc_payoff_sum_spec, ih]
      ring

/-- C1, counterexample: price_european_call_mc performs no argument
validation.  Called with n_sim = 0 (and otherwise valid parameters
S0 = 100, K = 100, r = 0.05, sigma = 0.2, T = 1) it returns a value
instead of failing: the loop contributes nothing and the unguarded
quotient 0/0 is produced (NaN in the C code, 0 under the total real
division of the embedding).  No InvalidArgument condition exists
anywhere in the function. -/
theorem price_mc_zero_sims_returns_value :
    (price_european_call_mc 100 100 (5/100) (2/10) 1 0 123456).1 = 0 := by
  simp [price_european_call_mc, mc_loop]

/-- C1, amended: for every input with n_sim = 0, price_european_call_mc
runs zero loop iterations, divides the zero payoff sum by zero, and
returns the result of that unguarded division (NaN in C, 0 in the
embedding) with the generator state untouched; it never fails. -/
theorem price_mc_no_validation (S0 K r sigma T : ℝ) (s : ℕ) :
    (price_european_call_mc S0 K r sigma T 0 s).1 = 0 ∧
      (price_european_call_mc S0 K r sigma T 0 s).2 = s := by
  constructor
  · simp [price_european_call_mc, mc_loop]
  · simp [price_european_call_mc, mc_loop]

/-- Away from the division by zero the IEEE-aware embedding agrees with
the real-valued one: for sigma*sqrt(T) nonzero, price_european_call_bs_ieee
is the finite double holding price_european_call_bs. -/
lemma price_bs_ieee_refines (S0 K r sigma T : ℝ) (h : sigma * Real.sqrt T ≠ 0) :
    price_european_call_bs_ieee S0 K r sigma T
      = Dbl.fin (price_european_call_bs S0 K r sigma T) := by
  simp [price_european_call_bs_ieee, price_european_call_bs, ieee_div, h,
    dsub_fin, dnormal_cdf, dcombine, normal_cdf]

/-- The d1 numerator of the degenerate path is positive exactly when the
spot exceeds the discounted strike. -/
lemma deg_pos_iff (S0 K r T : ℝ) (hS0 : 0 < S0) (hK : 0 < K) :
    (0 < Real.log (S0 / K) + r * T ↔ K * Real.exp (-r * T) < S0) := by
  have hq : 0 < S0 / K := div_pos hS0 hK
  rw [neg_mul]
  rw [show (0 < Real.log (S0 / K) + r * T) ↔ (-(r * T) < Real.log (S0 / K)) from
    by constructor <;> intro h <;> linarith]
  rw [Real.lt_log_iff_exp_lt hq]
  rw [lt_div_iff₀ hK]
  rw [mul_comm]

/-- The d1 numerator of the degenerate path vanishes exactly when the
spot equals the discounted strike. -/
lemma deg_eq_iff (S0 K r T : ℝ) (hS0 : 0 < S0) (hK : 0 < K) :
    (Real.log (S0 / K) + r * T = 0 ↔ S0 = K * Real.exp (-r * T)) := by
  have hq : 0 < S0 / K := div_pos hS0 hK
  rw [neg_mul]
  rw [show (Real.log (S0 / K) + r * T = 0) ↔ (Real.log (S0 / K) = -(r * T)) from
    by constructor <;> intro h <;> linarith]
  rw [show (Real.log (S0 / K) = -(r * T)) ↔ (S0 / K = Real.exp (-(r * T))) from
    by rw [← Real.exp_eq_exp, Real.exp_log hq]]
  rw [div_eq_iff (ne_of_gt hK)]
  rw [mul_comm]

/-- C2, counterexample: at S0 = 100, K = 100, r = 0, sigma = 0, T = 1
price_european_call_bs neither fails nor special-cases; under IEEE
semantics the d1 numerator ln(S0/K) + (r + 0.5*sigma^2)*T is exactly 0
and the denominator sigma*sqrt(T) is 0, so d1 = 0.0/0.0 = NaN, which
propagates through d2, erf and the final combination: the caller
receives NaN, exactly what the claim says never happens. -/
theorem price_bs_boundary_nan :
    price_european_call_bs_ieee 100 100 0 0 1 = Dbl.nan := by
  norm_num [price_european_call_bs_ieee, ieee_div, dsub_fin, dnormal_cdf, dcombine]

/-- C2, amended: price_european_call_bs has no guard and no failure path
for sigma = 0 or T = 0; it evaluates the formula with the zero
denominator sigma*sqrt(T).  Under IEEE semantics (S0 > 0, K > 0,
sigma >= 0, T >= 0) the division makes d1 = d2 = +-Infinity and the
function happens to return the discounted intrinsic value
max(S0 - K*exp(-r*T), 0) whenever S0 is not exactly K*exp(-r*T), but at
that boundary d1 = 0/0 = NaN propagates to the caller. -/
theorem price_bs_degenerate_ieee (S0 K r sigma T : ℝ)
    (hS0 : 0 < S0) (hK : 0 < K) (_hsig : 0 ≤ sigma) (_hT : 0 ≤ T)
    (hdeg : sigma = 0 ∨ T = 0) :
    price_european_call_bs_ieee S0 K r sigma T
      = if S0 = K * Real.exp (-r * T) then Dbl.nan
        else Dbl.fin (max (S0 - K * Real.exp (-r * T)) 0) := by
  have hden : sigma * Real.sqrt T = 0 := by
    rcases hdeg with h | h
    · rw [h, zero_mul]
    · rw [h, Real.sqrt_zero, mul_zero]
  have hnum : Real.log (S0 / K) + (r + 0.5 * sigma * sigma) * T
      = Real.log (S0 / K) + r * T := by
    rcases hdeg with h | h <;> rw [h] <;> ring
  simp only [price_european_call_bs_ieee, hden, hnum]
  rcases lt_trichotomy (Real.log (S0 / K) + r * T) 0 with hc | hc | hc
  · have hlt : S0 < K * Real.exp (-r * T) := by
      by_contra hge
      rcases eq_or_lt_of_le (not_lt.mp hge) with he | hl
      · exact absurd ((deg_eq_iff S0 K r T hS0 hK).mpr he.symm) (by linarith)
      · exact absurd ((deg_pos_iff S0 K r T hS0 hK).mpr hl) (by linarith)
    have hdiv : ieee_div (Real.log (S0 / K) + r * T) 0 = Dbl.ninf := by
      simp [ieee_div, hc, asymm hc]
    rw [hdiv, if_neg (ne_of_lt hlt)]
    simp only [dsub_fin, dnormal_cdf, dcombine]
    rw [max_eq_right (sub_nonpos.mpr hlt.le)]
    norm_num
  · have heq : S0 = K * Real.exp (-r * T) := (deg_eq_iff S0 K r T hS0 hK).mp hc
    have hdiv : ieee_div (Real.log (S0 / K) + r * T) 0 = Dbl.nan := by
      simp [ieee_div, hc]
    rw [hdiv, if_pos heq]
    simp only [dsub_fin, dnormal_cdf, dcombine]
  · have hgt : K * Real.exp (-r * T) < S0 := (deg_pos_iff S0 K r T hS0 hK).mp hc
    have hdiv : ieee_div (Real.log (S0 / K) + r * T) 0 = Dbl.pinf := by
      simp [ieee_div, hc]
    rw [hdiv, if_neg (ne_of_gt hgt)]
    simp only [dsub_fin, dnormal_cdf, dcombine]
    rw [max_eq_left (sub_nonneg.mpr hgt.le)]
    norm_num

/-- C2, amended, witness at S0 = 100, K = 50, r = 0, sigma = 0, T = 1,
where the spot differs from the discounted strike. -/
theorem price_bs_degenerate_ieee_witness :
    (0:ℝ) < 100 ∧ (0:ℝ) < 50 ∧ (0:ℝ) ≤ 0 ∧ (0:ℝ) ≤ 1 ∧
      price_european_call_bs_ieee 100 50 0 0 1
        = if (100:ℝ) = 50 * Real.exp (-0 * 1) then Dbl.nan
          else Dbl.fin (max (100 - 50 * Real.exp (-0 * 1)) 0) :=
  ⟨by norm_num, by norm_num, le_refl 0, by norm_num,
    price_bs_degenerate_ieee 100 50 0 0 1 (by norm_num) (by norm_num)
      (le_refl 0) (by norm_num) (Or.inl rfl)⟩

/-- C3, counterexample: the nonzero 32-bit state 1584200935 is mapped by
xorshift32 to 4294967295 = UINT32_MAX, so random_double returns
UINT32_MAX / UINT32_MAX = 1 there: the uniform draw is not strictly
below 1, refuting the claimed half-open range [0, 1). -/
theorem random_double_attains_one :
    (1584200935 : ℕ) ≠ 0 ∧ (1584200935 : ℕ) < U32 ∧
      (random_double 1584200935).1 = 1 ∧
      ¬ ((random_double 1584200935).1 < 1) := by
  have hx : xorshift32 1584200935 = 4294967295 := by decide
  have hv : (random_double 1584200935).1 = 1 := by
    simp only [random_double, hx, UINT32_MAX]
    norm_num
  exact ⟨by decide, by decide, hv, by rw [hv]; exact lt_irrefl 1⟩

/-- C3, amended: for every nonzero 32-bit state, the value of
random_double lies in the closed interval [1/(2^32 - 1), 1]: it is
bounded away from 0 and can equal 1 (it does exactly when the advanced
state is 2^32 - 1), so the half-open interval of the claim must be
widened to include 1. -/
theorem random_double_range (s : ℕ) (h0 : s ≠ 0) (hs : s < U32) :
    1 / (UINT32_MAX : ℝ) ≤ (random_double s).1 ∧ (random_double s).1 ≤ 1 :=
  random_double_bounds hs h0

/-- C3, amended, witness at state 1. -/
theorem random_double_range_witness :
    (1 : ℕ) ≠ 0 ∧ (1 : ℕ) < U32 ∧
      (1 / (UINT32_MAX : ℝ) ≤ (random_double 1).1 ∧ (random_double 1).1 ≤ 1) :=
  ⟨by decide, by decide, random_double_range 1 (by decide) (by decide)⟩

/-- C4: for valid inputs (S0 > 0, K > 0, T >= 0, sigma >= 0, n_sim >= 1)
and every initial generator state, the Monte Carlo price equals
exp(-r*T) * (1/n_sim) * (sum over n_sim successive draws of
call_payoff(simulate_gbm(S0, r, sigma, T), K)); the code divides the
accumulated sum by n_sim and only then multiplies by the discount
factor. -/
theorem price_mc_is_discounted_mean (S0 K r sigma T : ℝ) (n s : ℕ)
    (_hS0 : 0 < S0) (_hK : 0 < K) (_hT : 0 ≤ T) (_hsig : 0 ≤ sigma) (_hn : 1 ≤ n) :
    (price_european_call_mc S0 K r sigma T n s).1
      = Real.exp (-r * T) * ((1 / (n : ℝ)) * mc_payoff_sum_spec S0 K r sigma T n s) := by
  simp only [price_european_call_mc, mc_loop_eq, zero_add]
  ring

/-- C4, witness at S0 = K = 1, r = 0, sigma = 0, T = 0, n_sim = 1,
state 1. -/
theorem price_mc_is_discounted_mean_witness :
    (0:ℝ) < 1 ∧ (0:ℝ) ≤ 0 ∧ 1 ≤ 1 ∧
      (price_european_call_mc 1 1 0 0 0 1 1).1
        = Real.exp (-0 * 0) * ((1 / ((1:ℕ) : ℝ)) * mc_payoff_sum_spec 1 1 0 0 0 1 1) :=
  ⟨by norm_num, le_refl 0, le_refl 1,
    price_mc_is_discounted_mean 1 1 0 0 0 1 1 (by norm_num) (by norm_num)
      (le_refl 0) (le_refl 0) (le_refl 1)⟩

/-- C5: for S0 > 0, K > 0, sigma > 0, T > 0 the analytic pricer returns
S0*Phi(d1) - K*exp(-r*T)*Phi(d2) with
d1 = (ln(S0/K) + (r + sigma^2/2)*T)/(sigma*sqrt(T)),
d2 = d1 - sigma*sqrt(T) and Phi(x) = 0.5*(1 + erf(x/sqrt(2))). -/
theorem price_bs_formula (S0 K r sigma T : ℝ)
    (_hS0 : 0 < S0) (_hK : 0 < K) (_hsig : 0 < sigma) (_hT : 0 < T) :
    price_european_call_bs S0 K r sigma T
      = S0 * (0.5 * (1 + erf ((Real.log (S0 / K) + (r + sigma ^ 2 / 2) * T)
              / (sigma * Real.sqrt T) / Real.sqrt 2)))
        - K * Real.exp (-r * T) * (0.5 * (1 + erf (((Real.log (S0 / K)
              + (r + sigma ^ 2 / 2) * T) / (sigma * Real.sqrt T)
              - sigma * Real.sqrt T) / Real.sqrt 2))) := by
  have harg : r + 0.5 * sigma * sigma = r + sigma ^ 2 / 2 := by ring
  simp only [price_european_call_bs, normal_cdf, harg]

/-- C5, witness at S0 = 1, K = 1, r = 0, sigma = 1, T = 1. -/
theorem price_bs_formula_witness :
    (0:ℝ) < 1 ∧
      price_european_call_bs 1 1 0 1 1
        = 1 * (0.5 * (1 + erf ((Real.log (1 / 1) + (0 + 1 ^ 2 / 2) * 1)
                / (1 * Real.sqrt 1) / Real.sqrt 2)))
          - 1 * Real.exp (-0 * 1) * (0.5 * (1 + erf (((Real.log (1 / 1)
                + (0 + 1 ^ 2 / 2) * 1) / (1 * Real.sqrt 1)
                - 1 * Real.sqrt 1) / Real.sqrt 2))) :=
  ⟨by norm_num,
    price_bs_formula 1 1 0 1 1 (by norm_num) (by norm_num) (by norm_num) (by norm_num)⟩

/-- C6: simulate_gbm draws exactly one standard normal Z (advancing the
generator state by exactly one normal_random call) and returns
S0 * exp((r - sigma^2/2)*T + sigma*sqrt(T)*Z), including the Ito
correction term -sigma^2/2. -/
theorem simulate_gbm_closed_form (S0 r sigma T : ℝ) (s : ℕ) :
    simulate_gbm S0 r sigma T s
      = (S0 * Real.exp ((r - sigma ^ 2 / 2) * T
            + sigma * Real.sqrt T * (normal_random s).1),
          (normal_random s).2) := by
  have harg : r - 0.5 * sigma * sigma = r - sigma ^ 2 / 2 := by ring
  simp only [simulate_gbm, harg]

/-- C7, counterexample: normal_random has no guard on its first uniform
draw.  At generator state 0 (the value a never-seeded static uint32_t
holds) the first draw is exactly 0 and the argument handed to log inside
normal_random is that raw 0: no re-draw and no clamping to a minimum
positive value happens, so log is applied to 0 (log(0) = -Infinity in
the C code). -/
theorem normal_random_log_arg_can_be_zero :
    (random_double 0).1 = 0 ∧ normal_random_log_arg 0 = 0 ∧
      ¬ (0 < normal_random_log_arg 0) := by
  have hx : xorshift32 0 = 0 := by decide
  have hv : (random_double 0).1 = 0 := by
    simp [random_double, hx]
  exact ⟨hv, hv, by rw [show normal_random_log_arg 0 = 0 from hv]; exact lt_irrefl 0⟩

/-- C7, amended: normal_random applies log directly to the raw first
uniform draw, with no re-draw and no clamping; the only reason log
never sees 0 in practice is the generator invariant, which keeps every
nonzero 32-bit state producing a strictly positive uniform value. -/
theorem normal_random_unguarded (s : ℕ) (h0 : s ≠ 0) (hs : s < U32) :
    normal_random_log_arg s = (random_double s).1 ∧
      0 < normal_random_log_arg s := by
  refine ⟨rfl, ?_⟩
  have hb := (random_double_bounds hs h0).1
  have hpos : (0:ℝ) < 1 / (UINT32_MAX : ℝ) := by norm_num [UINT32_MAX]
  exact lt_of_lt_of_le hpos hb

/-- C7, amended, witness at state 1. -/
theorem normal_random_unguarded_witness :
    (1 : ℕ) ≠ 0 ∧ (1 : ℕ) < U32 ∧
      (normal_random_log_arg 1 = (random_double 1).1 ∧
        0 < normal_random_log_arg 1) :=
  ⟨by decide, by decide, normal_random_unguarded 1 (by decide) (by decide)⟩

/-- C8: seeding with 0 puts the generator in exactly the state that
seeding with 1 produces, so the whole subsequent stream of uniform
draws is identical. -/
theorem seed_zero_equals_seed_one :
    rng_seed 0 = rng_seed 1 ∧
      ∀ n : ℕ, uniform_stream (rng_seed 0) n = uniform_stream (rng_seed 1) n := by
  have h : rng_seed 0 = rng_seed 1 := by decide
  exact ⟨h, fun n => by rw [h]⟩

/-- C9: put-call parity at payoff level and the payoff sum identity:
for all real S and K, call_payoff(S,K) - put_payoff(S,K) = S - K and
call_payoff(S,K) + put_payoff(S,K) = abs(S - K). -/
theorem payoff_parity (S K : ℝ) :
    call_payoff S K - put_payoff S K = S - K ∧
      call_payoff S K + put_payoff S K = |S - K| := by
  simp only [call_payoff, put_payoff]
  rcases lt_trichotomy S K with h | h | h
  · rw [if_neg (by linarith), if_pos h]
    constructor
    · ring
    · rw [abs_of_neg (by linarith : S - K < 0)]; ring
  · subst h
    constructor
    · ring
    · simp
  · rw [if_pos h, if_neg (by linarith)]
    constructor
    · ring
    · rw [abs_of_pos (by linarith : (0:ℝ) < S - K)]; ring

/-- C10: from any 32-bit seed, every state reached from rng_seed by
iterating xorshift32 is nonzero; every uniform draw from such a state
is at least 1/(2^32 - 1), hence strictly positive, and the u1 that
normal_random feeds to log from such a state is strictly positive. -/
theorem seeded_stream_positive (seed n : ℕ) (hseed : seed < U32) :
    xorshift32^[n] (rng_seed seed) ≠ 0 ∧
      1 / (UINT32_MAX : ℝ) ≤ (random_double (xorshift32^[n] (rng_seed seed))).1 ∧
      0 < (random_double (xorshift32^[n] (rng_seed seed))).1 ∧
      0 < normal_random_log_arg (xorshift32^[n] (rng_seed seed)) := by
  obtain ⟨hne, hlt⟩ := seeded_state_invariant hseed n
  obtain ⟨hlo, _⟩ := random_double_bounds hlt hne
  have hpos : (0:ℝ) < 1 / (UINT32_MAX : ℝ) := by norm_num [UINT32_MAX]
  exact ⟨hne, hlo, lt_of_lt_of_le hpos hlo, lt_of_lt_of_le hpos hlo⟩

/-- C10, witness at seed 0 after one step. -/
theorem seeded_stream_positive_witness :
    (0 : ℕ) < U32 ∧
      (xorshift32^[1] (rng_seed 0) ≠ 0 ∧
        1 / (UINT32_MAX : ℝ) ≤ (random_double (xorshift32^[1] (rng_seed 0))).1 ∧
        0 < (random_double (xorshift32^[1] (rng_seed 0))).1 ∧
        0 < normal_random_log_arg (xorshift32^[1] (rng_seed 0))) :=
  ⟨by decide, seeded_stream_positive 0 1 (by decide)⟩

end MCPricing
